import Mathlib

/-!
Verification of the fraction-of-native-contacts routine of this repository.

The repository's only non-trivial logic is the function `best_hummer_q`,
which selects the native-contact heavy-atom pairs of a reference structure
and scores every frame of a trajectory by the Best-Hummer-Eaton smoothed
contact fraction.  The function is embedded shallowly below: the structure
and trajectory objects delivered by the external loader are records
exposing, per atom, a heaviness flag and a residue index, plus per-frame
3D coordinates, exactly the interface the design document assigns to the
loader; distances are Euclidean; machine floats are modelled by real
numbers; the distance routine fails (returns `none`) on an out-of-range
pair index, as the underlying library raises there, and the mean of an
empty row is NaN in the source's array library, modelled as `none`.
-/

namespace NativeContacts

noncomputable section

/-- Sigmoid sharpness constant of the source, `BETA_CONST = 50`, in 1/nm. -/
def BETA_CONST : ℝ := 50

/-- Tolerance multiplier of the source, `LAMBDA_CONST = 1.8`. -/
def LAMBDA_CONST : ℝ := 1.8

/-- Native-contact cutoff of the source, `NATIVE_CUTOFF = 0.45`, in nm. -/
def NATIVE_CUTOFF : ℝ := 0.45

/-- One atom of a topology, as exposed by the loader: a heaviness flag
(true exactly when the atom is not a hydrogen) and the index of the
residue owning the atom. -/
structure Atom where
  isHeavy : Bool
  resIndex : ℕ

/-- The atom list of a structure, mirroring `topology` of the source. -/
structure Topology where
  atoms : List Atom

/-- A 3D coordinate. -/
abbrev Point := ℝ × ℝ × ℝ

/-- The coordinates of one frame, indexed by atom index. -/
abbrev Frame := List Point

/-- A trajectory object: a topology plus an ordered list of frames. -/
structure Traj where
  top : Topology
  frames : List Frame

/-- The slice `native[0]` of the source: the first frame. -/
def Traj.frame0 (t : Traj) : Frame := t.frames.getD 0 []

/-- Coordinate of atom `i` in a frame; a total lookup, used only under the
in-range guarantees established by `compute_distances1`. -/
def coord (f : Frame) (i : ℕ) : Point := f.getD i (0, 0, 0)

/-- Euclidean distance between two points. -/
def edist3 (a b : Point) : ℝ :=
  Real.sqrt ((a.1 - b.1) ^ 2 + (a.2.1 - b.2.1) ^ 2 + (a.2.2 - b.2.2) ^ 2)

/-- The call `native.topology.select_atom_indices` for the heavy atoms:
the indices of the non-hydrogen atoms, in ascending order. -/
def heavyIndices (t : Topology) : List ℕ :=
  (List.range t.atoms.length).filter (fun i => (t.atoms.getD i ⟨false, 0⟩).isHeavy)

/-- The pair enumeration `combinations(heavy, 2)` of the source, in
enumeration order. -/
def combinations2 : List ℕ → List (ℕ × ℕ)
  | [] => []
  | x :: xs => xs.map (fun y => (x, y)) ++ combinations2 xs

/-- Residue index of atom `i`, `topology.atom(i).residue.index`. -/
def resOf (t : Topology) (i : ℕ) : ℕ := (t.atoms.getD i ⟨false, 0⟩).resIndex

/-- The comprehension of the source building `heavy_pairs`: heavy-atom
pairs whose residue indices differ by more than 3. -/
def heavy_pairs (t : Topology) : List (ℕ × ℕ) :=
  (combinations2 (heavyIndices t)).filter
    (fun p => 3 < ((resOf t p.1 : ℤ) - (resOf t p.2 : ℤ)).natAbs)

/-- Distance computation over one frame for a pair list; `none` when a
pair index is out of range of the frame, as the library raises there. -/
def compute_distances1 (f : Frame) : List (ℕ × ℕ) → Option (List ℝ)
  | [] => some []
  | p :: ps => do
    let a ← f.get? p.1
    let b ← f.get? p.2
    let ds ← compute_distances1 f ps
    pure (edist3 a b :: ds)

/-- Distance computation over a whole trajectory: one row per frame. -/
def distances_frames : List Frame → List (ℕ × ℕ) → Option (List (List ℝ))
  | [], _ => some []
  | f :: fs, ps => do
    let d ← compute_distances1 f ps
    let rest ← distances_frames fs ps
    pure (d :: rest)

/-- The boolean-mask selection of the source keeping the pairs whose
native distance is below `NATIVE_CUTOFF`. -/
def filterByDist : List (ℕ × ℕ) → List ℝ → List (ℕ × ℕ)
  | p :: ps, d :: ds =>
    if d < NATIVE_CUTOFF then p :: filterByDist ps ds else filterByDist ps ds
  | _, _ => []

/-- The per-pair sigmoid of the source's scoring line. -/
def pairScore (r r0 : ℝ) : ℝ :=
  1 / (1 + Real.exp (BETA_CONST * (r - LAMBDA_CONST * r0)))

/-- The row mean of the source's array library; the mean of an empty row
is NaN there, modelled as `none`. -/
def np_mean : List ℝ → Option ℝ
  | [] => none
  | l => some (l.sum / (l.length : ℝ))

/-- The selection half of `best_hummer_q`: heavy pairs, their native-frame
distances, and the cutoff filter producing `native_contacts`. -/
def native_contacts_of (native : Traj) : Option (List (ℕ × ℕ)) := do
  let hp := heavy_pairs native.top
  let hpd ← compute_distances1 native.frame0 hp
  pure (filterByDist hp hpd)

/-- The whole of `best_hummer_q`: select the native contacts, compute the
contact distances over the trajectory and over the native first frame, and
take the per-frame mean of the sigmoid scores. -/
def best_hummer_q (traj native : Traj) : Option (List (Option ℝ)) := do
  let hp := heavy_pairs native.top
  let hpd ← compute_distances1 native.frame0 hp
  let nc := filterByDist hp hpd
  let r ← distances_frames traj.frames nc
  let r0 ← compute_distances1 native.frame0 nc
  pure (r.map (fun rf => np_mean (List.zipWith pairScore rf r0)))

/-- Rewriting `best_hummer_q` through the named selection half. -/
theorem best_hummer_q_def (traj native : Traj) :
    best_hummer_q traj native =
      (do
        let nc ← native_contacts_of native
        let r ← distances_frames traj.frames nc
        let r0 ← compute_distances1 native.frame0 nc
        pure (r.map (fun rf => np_mean (List.zipWith pairScore rf r0)))) := by
  unfold best_hummer_q native_contacts_of
  cases h : compute_distances1 native.frame0 (heavy_pairs native.top) <;> simp [h]

/-- A successful distance computation over one frame computes exactly the
Euclidean distances of the coordinates at the pair indices, and every pair
index is in range of the frame. -/
theorem compute_distances1_some {f : Frame} :
    ∀ {ps : List (ℕ × ℕ)} {ds : List ℝ}, compute_distances1 f ps = some ds →
      ds = ps.map (fun p => edist3 (coord f p.1) (coord f p.2)) ∧
        ∀ p ∈ ps, p.1 < f.length ∧ p.2 < f.length := by
  intro ps
  induction ps with
  | nil =>
    intro ds h
    simp only [compute_distances1, Option.some.injEq] at h
    simp [← h]
  | cons p ps ih =>
    intro ds h
    simp only [compute_distances1, Option.bind_eq_bind, Option.bind_eq_some,
      Option.pure_def, Option.some.injEq] at h
    obtain ⟨a, ha, b, hb, rest, hrest, hds⟩ := h
    obtain ⟨hmap, hmem⟩ := ih hrest
    have h1 : p.1 < f.length := (List.get?_eq_some.mp ha).1
    have h2 : p.2 < f.length := (List.get?_eq_some.mp hb).1
    have ca : coord f p.1 = a := by
      simp [coord, List.getD_eq_getElem?_getD, ← List.get?_eq_getElem?, ha]
    have cb : coord f p.2 = b := by
      simp [coord, List.getD_eq_getElem?_getD, ← List.get?_eq_getElem?, hb]
    refine ⟨by rw [← hds, hmap, List.map_cons, ca, cb], ?_⟩
    intro q hq
    rcases List.mem_cons.mp hq with h | h
    · exact h ▸ ⟨h1, h2⟩
    · exact hmem q h

/-- A frame whose coordinates contain every pair index yields a successful
distance computation. -/
theorem compute_distances1_some_of_lt {f : Frame} :
    ∀ {ps : List (ℕ × ℕ)}, (∀ p ∈ ps, p.1 < f.length ∧ p.2 < f.length) →
      compute_distances1 f ps =
        some (ps.map (fun p => edist3 (coord f p.1) (coord f p.2))) := by
  intro ps
  induction ps with
  | nil => intro _; rfl
  | cons p ps ih =>
    intro h
    obtain ⟨h1, h2⟩ := h p (List.mem_cons_self p ps)
    have ha : f.get? p.1 = some (coord f p.1) := by
      rw [List.get?_eq_get h1]
      simp [coord, List.getD_eq_getElem?_getD, ← List.get?_eq_getElem?,
        List.get?_eq_get h1]
    have hb : f.get? p.2 = some (coord f p.2) := by
      rw [List.get?_eq_get h2]
      simp [coord, List.getD_eq_getElem?_getD, ← List.get?_eq_getElem?,
        List.get?_eq_get h2]
    simp only [compute_distances1, ha, hb, ih (fun q hq => h q (List.mem_cons_of_mem p hq)),
      Option.bind_eq_bind, Option.some_bind, Option.pure_def, List.map_cons]

/-- A successful whole-trajectory distance computation is the per-frame
distance map, one row per frame, in frame order. -/
theorem distances_frames_some :
    ∀ {fs : List Frame} {ps : List (ℕ × ℕ)} {r : List (List ℝ)},
      distances_frames fs ps = some r →
      r = fs.map (fun f => ps.map (fun p => edist3 (coord f p.1) (coord f p.2))) := by
  intro fs
  induction fs with
  | nil =>
    intro ps r h
    simp only [distances_frames, Option.some.injEq] at h
    simp [← h]
  | cons f fs ih =>
    intro ps r h
    simp only [distances_frames, Option.bind_eq_bind, Option.bind_eq_some,
      Option.pure_def, Option.some.injEq] at h
    obtain ⟨d, hd, rest, hrest, hr⟩ := h
    rw [← hr, (compute_distances1_some hd).1, ih hrest, List.map_cons]

/-- The boolean-mask selection over a mask computed by mapping a distance
function is the list filter by that distance condition. -/
theorem filterByDist_map (g : ℕ × ℕ → ℝ) :
    ∀ ps : List (ℕ × ℕ),
      filterByDist ps (ps.map g) = ps.filter (fun p => g p < NATIVE_CUTOFF) := by
  intro ps
  induction ps with
  | nil => rfl
  | cons p ps ih =>
    simp only [List.map_cons, filterByDist, List.filter_cons, ih]
    by_cases h : g p < NATIVE_CUTOFF
    · rw [if_pos h, if_pos (decide_eq_true h)]
    · rw [if_neg h, if_neg (by simpa using h)]

/-- Mapping the distance function over the mask-selected pairs yields the
mask-selected distances. -/
theorem filterByDist_map_map (g : ℕ × ℕ → ℝ) :
    ∀ ps : List (ℕ × ℕ),
      (filterByDist ps (ps.map g)).map g = (ps.map g).filter (fun d => d < NATIVE_CUTOFF) := by
  intro ps
  induction ps with
  | nil => rfl
  | cons p ps ih =>
    simp only [List.map_cons, filterByDist, List.filter_cons]
    by_cases h : g p < NATIVE_CUTOFF
    · rw [if_pos h, if_pos (decide_eq_true h), List.map_cons, ih]
    · rw [if_neg h, if_neg (by simpa using h), ih]

/-- Mask selection keeps a subsequence of the pair list: the retained
pairs appear in their original enumeration order. -/
theorem filterByDist_sublist :
    ∀ (ps : List (ℕ × ℕ)) (ds : List ℝ), List.Sublist (filterByDist ps ds) ps := by
  intro ps
  induction ps with
  | nil => intro ds; cases ds <;> simp [filterByDist]
  | cons p ps ih =>
    intro ds
    cases ds with
    | nil => simp [filterByDist]
    | cons d ds =>
      simp only [filterByDist]
      by_cases h : d < NATIVE_CUTOFF
      · rw [if_pos h]; exact (ih ds).cons₂ p
      · rw [if_neg h]; exact (ih ds).cons p

/-- Membership in the pair enumeration of a strictly ascending index list:
exactly the pairs of two member indices in ascending order. -/
theorem mem_combinations2 {l : List ℕ} (hl : l.Pairwise (· < ·)) (i j : ℕ) :
    (i, j) ∈ combinations2 l ↔ i ∈ l ∧ j ∈ l ∧ i < j := by
  induction l with
  | nil => simp [combinations2]
  | cons x xs ih =>
    have hx : ∀ y ∈ xs, x < y := fun y hy => (List.pairwise_cons.mp hl).1 y hy
    have hxs : xs.Pairwise (· < ·) := (List.pairwise_cons.mp hl).2
    simp only [combinations2, List.mem_append, List.mem_map, List.mem_cons]
    constructor
    · rintro (⟨y, hy, hxy⟩ | h)
      · obtain ⟨rfl, rfl⟩ := Prod.mk.injEq .. ▸ hxy
        exact ⟨Or.inl rfl, Or.inr hy, hx _ hy⟩
      · obtain ⟨hi, hj, hij⟩ := (ih hxs).mp h
        exact ⟨Or.inr hi, Or.inr hj, hij⟩
    · rintro ⟨hi | hi, hj | hj, hij⟩
      · omega
      · exact Or.inl ⟨j, hj, by rw [hi]⟩
      · exact absurd (hj ▸ hx i hi) (by omega)
      · exact Or.inr ((ih hxs).mpr ⟨hi, hj, hij⟩)

/-- The heavy-atom index list is strictly ascending. -/
theorem heavyIndices_pairwise (t : Topology) : (heavyIndices t).Pairwise (· < ·) :=
  List.Pairwise.filter _ (List.pairwise_lt_range _)

/-- Membership in the heavy-atom index list. -/
theorem mem_heavyIndices (t : Topology) (i : ℕ) :
    i ∈ heavyIndices t ↔ i < t.atoms.length ∧ (t.atoms.getD i ⟨false, 0⟩).isHeavy = true := by
  simp [heavyIndices, List.mem_filter, List.mem_range]

/-- The per-pair sigmoid is strictly positive. -/
theorem pairScore_pos (r r0 : ℝ) : 0 < pairScore r r0 := by
  unfold pairScore
  have h : (0:ℝ) < 1 + Real.exp (BETA_CONST * (r - LAMBDA_CONST * r0)) := by
    have := Real.exp_pos (BETA_CONST * (r - LAMBDA_CONST * r0)); linarith
  positivity

/-- The per-pair sigmoid is strictly below one. -/
theorem pairScore_lt_one (r r0 : ℝ) : pairScore r r0 < 1 := by
  unfold pairScore
  have he := Real.exp_pos (BETA_CONST * (r - LAMBDA_CONST * r0))
  rw [div_lt_one (by linarith)]
  linarith

/-- A defined row mean comes from a non-empty row and is its sum over its
length. -/
theorem np_mean_eq_some {l : List ℝ} {v : ℝ} (h : np_mean l = some v) :
    l ≠ [] ∧ v = l.sum / (l.length : ℝ) := by
  cases l with
  | nil => simp [np_mean] at h
  | cons x xs =>
    refine ⟨by simp, ?_⟩
    simp only [np_mean, Option.some.injEq] at h
    exact h.symm

/-- The row mean of a non-empty row is defined. -/
theorem np_mean_ne_nil {l : List ℝ} (h : l ≠ []) :
    np_mean l = some (l.sum / (l.length : ℝ)) := by
  cases l with
  | nil => exact absurd rfl h
  | cons x xs => rfl

/-- A mean of values lying in the unit interval lies in the unit
interval. -/
theorem mean_mem_unit {l : List ℝ} {v : ℝ} (h : np_mean l = some v)
    (hb : ∀ x ∈ l, 0 ≤ x ∧ x ≤ 1) : 0 ≤ v ∧ v ≤ 1 := by
  obtain ⟨hne, hv⟩ := np_mean_eq_some h
  have hlen : (0:ℝ) < (l.length : ℝ) := by
    have : 0 < l.length := List.length_pos.mpr hne
    exact_mod_cast this
  have hsum0 : 0 ≤ l.sum := List.sum_nonneg (fun x hx => (hb x hx).1)
  have hsum1 : l.sum ≤ (l.length : ℝ) := by
    have := List.sum_le_card_nsmul l 1 (fun x hx => (hb x hx).2)
    simpa [nsmul_eq_mul] using this
  constructor
  · rw [hv]; positivity
  · rw [hv, div_le_one hlen]; exact hsum1

/-- Every element of a zip-with comes from elements of the two lists. -/
theorem mem_zipWith {α β γ : Type} {h : α → β → γ} :
    ∀ {as : List α} {bs : List β} {x : γ}, x ∈ List.zipWith h as bs →
      ∃ a ∈ as, ∃ b ∈ bs, x = h a b := by
  intro as
  induction as with
  | nil => intro bs x hx; simp at hx
  | cons a as ih =>
    intro bs x hx
    cases bs with
    | nil => simp at hx
    | cons b bs =>
      rcases List.mem_cons.mp hx with h1 | h1
      · exact ⟨a, List.mem_cons_self .., b, List.mem_cons_self .., h1⟩
      · obtain ⟨a', ha', b', hb', hx'⟩ := ih h1
        exact ⟨a', List.mem_cons_of_mem a ha', b', List.mem_cons_of_mem b hb', hx'⟩

/-- Distance from the origin along the first axis. -/
theorem edist3_axis (x : ℝ) (h : 0 ≤ x) : edist3 (0, 0, 0) (x, 0, 0) = x := by
  unfold edist3
  rw [show ((0:ℝ) - x) ^ 2 + ((0:ℝ) - 0) ^ 2 + ((0:ℝ) - 0) ^ 2 = x ^ 2 by ring,
    Real.sqrt_sq h]

/-- A two-atom native structure: both atoms heavy, residues 0 and 10, at
native distance 0.3, below the cutoff. -/
def native2 : Traj := ⟨⟨[⟨true, 0⟩, ⟨true, 10⟩]⟩, [[(0, 0, 0), (0.3, 0, 0)]]⟩

/-- A three-atom frame whose first two atoms are 1 apart. -/
def frameB : Frame := [(0, 0, 0), (1, 0, 0), (7, 7, 7)]

/-- A one-frame trajectory over a three-atom topology. -/
def trajB : Traj := ⟨⟨[⟨false, 0⟩, ⟨false, 0⟩, ⟨false, 0⟩]⟩, [frameB]⟩

/-- A one-frame trajectory over a four-atom topology agreeing with `trajB`
on the first three atoms. -/
def trajB2 : Traj :=
  ⟨⟨[⟨false, 0⟩, ⟨false, 0⟩, ⟨false, 0⟩, ⟨false, 0⟩]⟩,
    [[(0, 0, 0), (1, 0, 0), (7, 7, 7), (9, 9, 9)]]⟩

/-- A two-atom native structure whose only residue-separated heavy pair is
at native distance 1, beyond the cutoff: its contact set is empty. -/
def native5 : Traj := ⟨⟨[⟨true, 0⟩, ⟨true, 10⟩]⟩, [[(0, 0, 0), (1, 0, 0)]]⟩

theorem heavy_pairs_native2 : heavy_pairs native2.top = [(0, 1)] := by decide

theorem heavy_pairs_native5 : heavy_pairs native5.top = [(0, 1)] := by decide

theorem cd_native2 : compute_distances1 native2.frame0 [(0, 1)] = some [(0.3 : ℝ)] := by
  have h : compute_distances1 native2.frame0 [(0, 1)] =
      some [edist3 ((0:ℝ), (0:ℝ), (0:ℝ)) ((0.3:ℝ), 0, 0)] := rfl
  rw [h, edist3_axis (0.3 : ℝ) (by norm_num)]

theorem cd_native5 : compute_distances1 native5.frame0 [(0, 1)] = some [(1 : ℝ)] := by
  have h : compute_distances1 native5.frame0 [(0, 1)] =
      some [edist3 ((0:ℝ), (0:ℝ), (0:ℝ)) ((1:ℝ), 0, 0)] := rfl
  rw [h, edist3_axis (1 : ℝ) (by norm_num)]

theorem nc_native2 : native_contacts_of native2 = some [(0, 1)] := by
  unfold native_contacts_of
  rw [heavy_pairs_native2]
  show (compute_distances1 native2.frame0 [(0, 1)]).bind
      (fun hpd => pure (filterByDist [(0, 1)] hpd)) = some [(0, 1)]
  rw [cd_native2]
  rw [show (some [(0.3 : ℝ)]).bind (fun hpd => pure (filterByDist [(0, 1)] hpd)) =
      some (filterByDist [(0, 1)] [(0.3 : ℝ)]) from rfl]
  rw [show filterByDist [(0, 1)] [(0.3 : ℝ)] =
      if (0.3 : ℝ) < NATIVE_CUTOFF then [(0, 1)] else [] from rfl,
    if_pos (by norm_num [NATIVE_CUTOFF])]

theorem nc_native5 : native_contacts_of native5 = some [] := by
  unfold native_contacts_of
  rw [heavy_pairs_native5]
  show (compute_distances1 native5.frame0 [(0, 1)]).bind
      (fun hpd => pure (filterByDist [(0, 1)] hpd)) = some []
  rw [cd_native5]
  rw [show (some [(1 : ℝ)]).bind (fun hpd => pure (filterByDist [(0, 1)] hpd)) =
      some (filterByDist [(0, 1)] [(1 : ℝ)]) from rfl]
  rw [show filterByDist [(0, 1)] [(1 : ℝ)] =
      if (1 : ℝ) < NATIVE_CUTOFF then [(0, 1)] else [] from rfl,
    if_neg (by norm_num [NATIVE_CUTOFF])]

theorem cd_frameB : compute_distances1 frameB [(0, 1)] = some [(1 : ℝ)] := by
  have h : compute_distances1 frameB [(0, 1)] =
      some [edist3 ((0:ℝ), (0:ℝ), (0:ℝ)) ((1:ℝ), 0, 0)] := rfl
  rw [h, edist3_axis (1 : ℝ) (by norm_num)]

theorem df_trajB : distances_frames trajB.frames [(0, 1)] = some [[(1 : ℝ)]] := by
  have h : distances_frames trajB.frames [(0, 1)] =
      (compute_distances1 frameB [(0, 1)]).bind
        (fun d => some [d]) := rfl
  rw [h, cd_frameB]
  rfl

theorem eval_trajB : best_hummer_q trajB native2 = some [some (pairScore 1 0.3)] := by
  rw [best_hummer_q_def, nc_native2]
  simp only [Option.bind_eq_bind, Option.some_bind]
  rw [df_trajB]
  simp only [Option.some_bind]
  rw [cd_native2]
  simp only [Option.some_bind, Option.pure_def]
  rw [show List.map (fun rf => np_mean (List.zipWith pairScore rf [(0.3 : ℝ)])) [[(1 : ℝ)]] =
      [np_mean [pairScore 1 0.3]] from rfl]
  rw [np_mean_ne_nil (by simp)]
  norm_num

theorem eval_trajB_native5 : best_hummer_q trajB native5 = some [none] := by
  rw [best_hummer_q_def, nc_native5]
  simp only [Option.bind_eq_bind, Option.some_bind]
  rw [show distances_frames trajB.frames ([] : List (ℕ × ℕ)) = some [[]] from rfl]
  simp only [Option.some_bind]
  rfl

/-- C8: for a fixed native pair distance, the per-pair sigmoid score is a
strictly decreasing function of the frame distance: for frame distances
a < b the score at a is strictly greater than the score at b. -/
theorem c8_pair_score_strictly_decreasing (r0 a b : ℝ) (h : a < b) :
    pairScore b r0 < pairScore a r0 := by
  unfold pairScore
  have hbeta : (0:ℝ) < BETA_CONST := by norm_num [BETA_CONST]
  have hx : BETA_CONST * (a - LAMBDA_CONST * r0) < BETA_CONST * (b - LAMBDA_CONST * r0) :=
    mul_lt_mul_of_pos_left (by linarith) hbeta
  have he := Real.exp_lt_exp.mpr hx
  have hpa : (0:ℝ) < 1 + Real.exp (BETA_CONST * (a - LAMBDA_CONST * r0)) := by
    have := Real.exp_pos (BETA_CONST * (a - LAMBDA_CONST * r0)); linarith
  exact one_div_lt_one_div_of_lt hpa (by linarith)

theorem c8_witness : pairScore 0.2 0.3 < pairScore 0.1 0.3 :=
  c8_pair_score_strictly_decreasing 0.3 0.1 0.2 (by norm_num)

/-- C3: the scoring line contains no overflow guard: at a frame distance
ten times the tolerance-scaled native distance the per-pair score is the
plain sigmoid value, strictly positive — never short-circuited to the
saturated limit 0 — although mathematically below 1/100. -/
theorem c3_no_overflow_guard :
    0 < pairScore (10 * (LAMBDA_CONST * 0.3)) 0.3 ∧
      pairScore (10 * (LAMBDA_CONST * 0.3)) 0.3 < 1 / 100 := by
  refine ⟨pairScore_pos _ _, ?_⟩
  unfold pairScore
  have harg : BETA_CONST * (10 * (LAMBDA_CONST * 0.3) - LAMBDA_CONST * 0.3) = 243 := by
    norm_num [BETA_CONST, LAMBDA_CONST]
  rw [harg]
  have hexp : (244:ℝ) ≤ Real.exp 243 := by
    have := Real.add_one_le_exp (243 : ℝ)
    linarith
  have h1 : 1 / (1 + Real.exp 243) ≤ 1 / 245 := by
    apply one_div_le_one_div_of_le (by norm_num)
    linarith
  calc 1 / (1 + Real.exp 243) ≤ 1 / 245 := h1
    _ < 1 / 100 := by norm_num

/-- C6: every per-pair sigmoid score lies in the closed unit interval, and
so does every defined per-frame mean score of `best_hummer_q`. -/
theorem c6_scores_bounded :
    (∀ r r0 : ℝ, 0 ≤ pairScore r r0 ∧ pairScore r r0 ≤ 1) ∧
      ∀ (traj native : Traj) (qs : List (Option ℝ)),
        best_hummer_q traj native = some qs →
        ∀ oq ∈ qs, ∀ v : ℝ, oq = some v → 0 ≤ v ∧ v ≤ 1 := by
  have hpair : ∀ r r0 : ℝ, 0 ≤ pairScore r r0 ∧ pairScore r r0 ≤ 1 :=
    fun r r0 => ⟨le_of_lt (pairScore_pos r r0), le_of_lt (pairScore_lt_one r r0)⟩
  refine ⟨hpair, ?_⟩
  intro traj native qs hq oq hmem v hv
  rw [best_hummer_q_def] at hq
  simp only [Option.bind_eq_bind, Option.bind_eq_some, Option.pure_def,
    Option.some.injEq] at hq
  obtain ⟨nc, _, r, _, r0, _, hqs⟩ := hq
  rw [← hqs] at hmem
  obtain ⟨rf, _, hoq⟩ := List.mem_map.mp hmem
  rw [← hoq] at hv
  refine mean_mem_unit hv ?_
  intro x hx
  obtain ⟨a, _, b, _, hxab⟩ := mem_zipWith hx
  exact hxab ▸ hpair a b

theorem c6_witness : 0 ≤ pairScore 1 0.3 ∧ pairScore 1 0.3 ≤ 1 :=
  c6_scores_bounded.2 trajB native2 [some (pairScore 1 0.3)] eval_trajB
    (some (pairScore 1 0.3)) (List.mem_singleton_self _) (pairScore 1 0.3) rfl

/-- C7: scoring the native structure's own first frame: the frame
distances coincide with the native distances, each per-pair score is the
sigmoid at beta times (1 - lambda) times the native distance, and that
score exceeds one half whenever the native distance is positive. -/
theorem c7_reflexivity (native : Traj) (nc : List (ℕ × ℕ)) (r0 : List ℝ)
    (hnc : native_contacts_of native = some nc)
    (hr0 : compute_distances1 native.frame0 nc = some r0) :
    distances_frames [native.frame0] nc = some [r0] ∧
      best_hummer_q ⟨native.top, [native.frame0]⟩ native =
        some [np_mean (List.zipWith pairScore r0 r0)] ∧
      ∀ d ∈ r0, pairScore d d = 1 / (1 + Real.exp (50 * (1 - 1.8) * d)) ∧
        (0 < d → 1 / 2 < pairScore d d) := by
  have hdf : distances_frames [native.frame0] nc = some [r0] := by
    simp only [distances_frames, hr0, Option.bind_eq_bind, Option.some_bind,
      Option.pure_def]
  refine ⟨hdf, ?_, ?_⟩
  · rw [best_hummer_q_def, hnc]
    simp only [Option.bind_eq_bind, Option.some_bind]
    rw [hdf]
    simp only [Option.some_bind, hr0, Option.pure_def, List.map_cons, List.map_nil]
  · intro d _
    have harg : BETA_CONST * (d - LAMBDA_CONST * d) = 50 * (1 - 1.8) * d := by
      unfold BETA_CONST LAMBDA_CONST; ring
    constructor
    · unfold pairScore; rw [harg]
    · intro hd
      unfold pairScore
      have hneg : BETA_CONST * (d - LAMBDA_CONST * d) < 0 := by
        rw [harg]; nlinarith
      have he1 : Real.exp (BETA_CONST * (d - LAMBDA_CONST * d)) < 1 :=
        Real.exp_lt_one_iff.mpr hneg
      have hpos : (0:ℝ) < 1 + Real.exp (BETA_CONST * (d - LAMBDA_CONST * d)) := by
        have := Real.exp_pos (BETA_CONST * (d - LAMBDA_CONST * d)); linarith
      have h2 : 1 + Real.exp (BETA_CONST * (d - LAMBDA_CONST * d)) < 2 := by linarith
      have := one_div_lt_one_div_of_lt hpos h2
      linarith

theorem c7_witness : 1 / 2 < pairScore 0.3 0.3 :=
  ((c7_reflexivity native2 [(0, 1)] [(0.3 : ℝ)] nc_native2 cd_native2).2.2
    0.3 (List.mem_singleton_self _)).2 (by norm_num)

/-- C2: the native-contact set consists exactly of the pairs (i, j) of two
heavy atoms with i < j whose residue indices differ by strictly more than
3 and whose first-native-frame Euclidean distance is strictly below the
cutoff; and (first conjunct) the set preserves the enumeration order of
the heavy-pair enumeration. -/
theorem c2_native_contacts_characterisation (native : Traj) (nc : List (ℕ × ℕ))
    (hnc : native_contacts_of native = some nc) :
    List.Sublist nc (combinations2 (heavyIndices native.top)) ∧
      ∀ i j : ℕ, (i, j) ∈ nc ↔
        i < native.top.atoms.length ∧ j < native.top.atoms.length ∧
          (native.top.atoms.getD i ⟨false, 0⟩).isHeavy = true ∧
          (native.top.atoms.getD j ⟨false, 0⟩).isHeavy = true ∧
          i < j ∧
          3 < ((resOf native.top i : ℤ) - (resOf native.top j : ℤ)).natAbs ∧
          edist3 (coord native.frame0 i) (coord native.frame0 j) < NATIVE_CUTOFF := by
  simp only [native_contacts_of, Option.bind_eq_bind, Option.bind_eq_some,
    Option.pure_def, Option.some.injEq] at hnc
  obtain ⟨hpd, hhpd, hfil⟩ := hnc
  have hmap := (compute_distances1_some hhpd).1
  rw [hmap] at hfil
  rw [filterByDist_map (fun p => edist3 (coord native.frame0 p.1) (coord native.frame0 p.2))
    (heavy_pairs native.top)] at hfil
  constructor
  · rw [← hfil]
    exact (List.filter_sublist _).trans (List.filter_sublist _)
  · intro i j
    rw [← hfil]
    rw [List.mem_filter]
    unfold heavy_pairs
    rw [List.mem_filter]
    rw [mem_combinations2 (heavyIndices_pairwise native.top) i j]
    rw [mem_heavyIndices, mem_heavyIndices]
    simp only [decide_eq_true_eq]
    tauto

theorem c2_witness : List.Sublist [((0:ℕ), (1:ℕ))] (combinations2 (heavyIndices native2.top)) :=
  (c2_native_contacts_characterisation native2 [(0, 1)] nc_native2).1

/-- C9: the recomputed native reference distance vector equals the subset
of the initially computed heavy-pair distances selected by the distance
filter; hence every entry is below the cutoff 0.45 and its
tolerance-scaled threshold is below 0.81. -/
theorem c9_r0_refinement (native : Traj) (hpd r0 : List ℝ) (nc : List (ℕ × ℕ))
    (hhpd : compute_distances1 native.frame0 (heavy_pairs native.top) = some hpd)
    (hnc : native_contacts_of native = some nc)
    (hr0 : compute_distances1 native.frame0 nc = some r0) :
    r0 = hpd.filter (fun d => d < NATIVE_CUTOFF) ∧
      ∀ d ∈ r0, d < NATIVE_CUTOFF ∧ LAMBDA_CONST * d < 0.81 := by
  simp only [native_contacts_of, Option.bind_eq_bind, Option.bind_eq_some,
    Option.pure_def, Option.some.injEq] at hnc
  obtain ⟨hpd', hhpd', hfil⟩ := hnc
  rw [hhpd'] at hhpd
  injection hhpd with heq
  rw [heq] at hhpd' hfil
  have hmap := (compute_distances1_some hhpd').1
  have hr0map := (compute_distances1_some hr0).1
  have key : r0 = hpd.filter (fun d => d < NATIVE_CUTOFF) := by
    rw [hr0map, ← hfil, hmap,
      filterByDist_map_map
        (fun p => edist3 (coord native.frame0 p.1) (coord native.frame0 p.2))
        (heavy_pairs native.top)]
  refine ⟨key, ?_⟩
  intro d hd
  rw [key, List.mem_filter, decide_eq_true_eq] at hd
  refine ⟨hd.2, ?_⟩
  have h18 : LAMBDA_CONST * d < LAMBDA_CONST * NATIVE_CUTOFF :=
    mul_lt_mul_of_pos_left hd.2 (by norm_num [LAMBDA_CONST])
  calc LAMBDA_CONST * d < LAMBDA_CONST * NATIVE_CUTOFF := h18
    _ ≤ 0.81 := by norm_num [LAMBDA_CONST, NATIVE_CUTOFF]

theorem c9_witness :
    ([(0.3 : ℝ)] : List ℝ) = [(0.3 : ℝ)].filter (fun d => d < NATIVE_CUTOFF) :=
  (c9_r0_refinement native2 [(0.3 : ℝ)] [(0.3 : ℝ)] [(0, 1)]
    (by rw [heavy_pairs_native2]; exact cd_native2) nc_native2 cd_native2).1

/-- The per-frame score exactly as the design document words it: the
arithmetic mean, over all retained pairs, of the sigmoid
1 / (1 + exp(beta * (r_f - lambda * r0))) with beta = 50 and lambda = 1.8,
where r_f is the pair's Euclidean distance in the frame and r0 its
distance in the first native frame. -/
def claimFrameScore (native : Traj) (nc : List (ℕ × ℕ)) (f : Frame) : ℝ :=
  (nc.map (fun p =>
      1 / (1 + Real.exp (50 * (edist3 (coord f p.1) (coord f p.2) -
        1.8 * edist3 (coord native.frame0 p.1) (coord native.frame0 p.2)))))).sum /
    (nc.length : ℝ)

/-- C1: whenever the native contact set is non-empty and scoring succeeds,
the output of `best_hummer_q` is exactly one scalar per frame in frame
order, each the arithmetic mean over all retained pairs of the sigmoid of
the claim's formula. -/
theorem c1_score_is_sigmoid_mean (traj native : Traj) (nc : List (ℕ × ℕ))
    (qs : List (Option ℝ))
    (hnc : native_contacts_of native = some nc) (hne : nc ≠ [])
    (hq : best_hummer_q traj native = some qs) :
    qs = traj.frames.map (fun f => some (claimFrameScore native nc f)) := by
  rw [best_hummer_q_def] at hq
  simp only [Option.bind_eq_bind, Option.bind_eq_some, Option.pure_def,
    Option.some.injEq] at hq
  obtain ⟨nc', hnc', r, hr, r0, hr0, hqs⟩ := hq
  rw [hnc] at hnc'
  injection hnc' with hnceq
  subst hnceq
  have hrmap := distances_frames_some hr
  have hr0map := (compute_distances1_some hr0).1
  rw [← hqs, hrmap, hr0map, List.map_map]
  apply List.map_congr_left
  intro f _
  show np_mean (List.zipWith pairScore
      (nc.map (fun p => edist3 (coord f p.1) (coord f p.2)))
      (nc.map (fun p => edist3 (coord native.frame0 p.1) (coord native.frame0 p.2)))) =
    some (claimFrameScore native nc f)
  rw [List.zipWith_map, List.zipWith_same]
  rw [np_mean_ne_nil (by simpa using hne)]
  unfold claimFrameScore
  rw [List.length_map]
  congr 1

theorem c1_witness :
    ([some (pairScore 1 0.3)] : List (Option ℝ)) =
      trajB.frames.map (fun f => some (claimFrameScore native2 [(0, 1)] f)) :=
  c1_score_is_sigmoid_mean trajB native2 [(0, 1)] [some (pairScore 1 0.3)]
    nc_native2 (by simp) eval_trajB

/-- Distance rows over two frame lists coincide when the frames agree,
position by position, on the coordinates at the pair indices. -/
theorem compute_distances1_congr {f1 f2 : Frame} :
    ∀ {ps : List (ℕ × ℕ)},
      (∀ p ∈ ps, f1.get? p.1 = f2.get? p.1 ∧ f1.get? p.2 = f2.get? p.2) →
      compute_distances1 f1 ps = compute_distances1 f2 ps := by
  intro ps
  induction ps with
  | nil => intro _; rfl
  | cons p ps ih =>
    intro h
    obtain ⟨h1, h2⟩ := h p (List.mem_cons_self p ps)
    simp only [compute_distances1, h1, h2,
      ih (fun q hq => h q (List.mem_cons_of_mem p hq))]

/-- Whole-trajectory distance computations coincide for frame lists of
equal length agreeing at the pair indices. -/
theorem distances_frames_congr :
    ∀ {l1 l2 : List Frame} {ps : List (ℕ × ℕ)}, l1.length = l2.length →
      (∀ fp ∈ l1.zip l2, ∀ p ∈ ps,
        fp.1.get? p.1 = fp.2.get? p.1 ∧ fp.1.get? p.2 = fp.2.get? p.2) →
      distances_frames l1 ps = distances_frames l2 ps := by
  intro l1
  induction l1 with
  | nil =>
    intro l2 ps hlen _
    cases l2 with
    | nil => rfl
    | cons f2 l2 => simp at hlen
  | cons f1 l1 ih =>
    intro l2 ps hlen hag
    cases l2 with
    | nil => simp at hlen
    | cons f2 l2 =>
      have hf : compute_distances1 f1 ps = compute_distances1 f2 ps :=
        compute_distances1_congr
          (fun p hp => hag (f1, f2) (by rw [List.zip_cons_cons]; exact List.mem_cons_self ..) p hp)
      have hrest : distances_frames l1 ps = distances_frames l2 ps :=
        ih (by simpa using hlen)
          (fun fp hfp => hag fp (by rw [List.zip_cons_cons]; exact List.mem_cons_of_mem _ hfp))
      simp only [distances_frames, hf, hrest]

/-- C10: the per-frame scores depend only on the trajectory coordinates of
the atoms occurring in some native-contact pair (and on the native
structure): two trajectories of equal length agreeing, frame by frame, on
the coordinates at those atom indices receive identical score sequences. -/
theorem c10_contact_atoms_only (t1 t2 native : Traj) (nc : List (ℕ × ℕ))
    (hnc : native_contacts_of native = some nc)
    (hlen : t1.frames.length = t2.frames.length)
    (hag : ∀ fp ∈ t1.frames.zip t2.frames, ∀ p ∈ nc,
      fp.1.get? p.1 = fp.2.get? p.1 ∧ fp.1.get? p.2 = fp.2.get? p.2) :
    best_hummer_q t1 native = best_hummer_q t2 native := by
  rw [best_hummer_q_def, best_hummer_q_def, hnc]
  simp only [Option.bind_eq_bind, Option.some_bind]
  rw [distances_frames_congr hlen hag]

theorem c10_witness : best_hummer_q trajB native2 = best_hummer_q trajB2 native2 :=
  c10_contact_atoms_only trajB trajB2 native2 [(0, 1)] nc_native2 rfl
    (by
      intro fp hfp p hp
      rw [show trajB.frames.zip trajB2.frames =
          [(frameB, [((0:ℝ), (0:ℝ), (0:ℝ)), (1, 0, 0), (7, 7, 7), (9, 9, 9)])] from rfl,
        List.mem_singleton] at hfp
      rw [List.mem_singleton] at hp
      rw [hfp, hp]
      exact ⟨rfl, rfl⟩)

/-- C5, counterexample: a native structure whose only residue-separated
heavy pair fails the distance filter has an empty contact set, and the
score of a one-frame trajectory is the undefined mean `none` (NaN in the
source), not 0. -/
theorem c5_counterexample :
    best_hummer_q trajB native5 = some [none] ∧
      (some [none] : Option (List (Option ℝ))) ≠ some [some 0] := by
  exact ⟨eval_trajB_native5, by simp⟩

/-- C5, amended: when the native contact set is empty, every frame of
every trajectory is scored `none` (NaN, the mean of an empty row), rather
than 0 and rather than an error. -/
theorem c5_empty_contacts_give_nan (traj native : Traj)
    (hnc : native_contacts_of native = some []) :
    best_hummer_q traj native = some (traj.frames.map (fun _ => none)) := by
  rw [best_hummer_q_def, hnc]
  have hdf : ∀ fs : List Frame,
      distances_frames fs [] = some (fs.map (fun _ => ([] : List ℝ))) := by
    intro fs
    induction fs with
    | nil => rfl
    | cons f fs ih =>
      simp only [distances_frames, compute_distances1, ih, Option.bind_eq_bind,
        Option.some_bind, Option.pure_def, List.map_cons]
  simp only [Option.bind_eq_bind, Option.some_bind, hdf, compute_distances1,
    Option.pure_def, Option.some.injEq]
  rw [List.map_map]
  rfl

theorem c5_witness : best_hummer_q trajB native5 = some (trajB.frames.map (fun _ => none)) :=
  c5_empty_contacts_give_nan trajB native5 nc_native5

/-- C4: the code performs no topology validation at all: a one-frame
trajectory of 3 atoms is scored against a 2-atom native structure without
any error, returning a score, instead of aborting before the distance
computation. -/
theorem c4_no_topology_check :
    trajB.top.atoms.length = 3 ∧ native2.top.atoms.length = 2 ∧
      (trajB.frames.getD 0 []).length = 3 ∧ (native2.frames.getD 0 []).length = 2 ∧
      best_hummer_q trajB native2 =
        some [some (1 / (1 + Real.exp (50 * (1 - 1.8 * 0.3))))] := by
  refine ⟨rfl, rfl, rfl, rfl, ?_⟩
  rw [eval_trajB]
  rfl

end

end NativeContacts
